import Mathlib

/-!
Verification of the round-robin phone-number selection module
(`roundrobin/roundrobin.go`) against its natural-language specification.

The persisted Redis state (sorted set of phone numbers, cursor scalar,
per-number lease keys, per-number counters) is embedded as a record of
association lists; the sorted set is kept in ascending score order, which
is how Redis serves every range query the code issues.  Scores are
modelled as `Int`: the code only ever writes the integer values `0` and
`max + 1`, and uses `-1` as the absent-cursor sentinel.
-/

/-- Phone numbers are opaque string identifiers. -/
abbrev Phone := String

/-- The persisted store state used by the module: the phone-number sorted
set (ascending by score), the `last_used_index` cursor scalar (`none` when
the key is absent), the `phone_lock_limited:*` lease keys (with the ttl
they were installed with), and the `counter:*` usage counters (absent key
= never selected). -/
structure RRState where
  pool     : List (Phone × Int)
  cursor   : Option Int
  leases   : List (Phone × Int)
  counters : List (Phone × Nat)
deriving DecidableEq, Repr

/-- `ZScore`: score of a member, `none` when absent (redis.Nil). -/
def zscore : List (Phone × Int) → Phone → Option Int
  | [], _ => none
  | z :: rest, n => if z.1 = n then some z.2 else zscore rest n

/-- Insert an entry into a score-ascending list, keeping it sorted. -/
def insertByScore (x : Phone × Int) : List (Phone × Int) → List (Phone × Int)
  | [] => [x]
  | w :: rest => if x.2 < w.2 then x :: w :: rest else w :: insertByScore x rest

/-- `ZAdd`: add a member with a score; an existing member's score is
updated (the entry moves to its new position in score order). -/
def zadd (pool : List (Phone × Int)) (number : Phone) (score : Int) :
    List (Phone × Int) :=
  insertByScore (number, score) (pool.filter (fun z => z.1 ≠ number))

/-- `Exists` on a `phone_lock_limited:` key: is a lease installed? -/
def leaseExists : List (Phone × Int) → Phone → Bool
  | [], _ => false
  | z :: rest, n => if z.1 = n then true else leaseExists rest n

/-- The ttl a lease key was installed with, `none` when the key is absent. -/
def lookupLease : List (Phone × Int) → Phone → Option Int
  | [], _ => none
  | z :: rest, n => if z.1 = n then some z.2 else lookupLease rest n

/-- `SetNX` on a lease key: install only when absent (no overwrite). -/
def setNXLease (leases : List (Phone × Int)) (number : Phone) (ttl : Int) :
    List (Phone × Int) :=
  if leaseExists leases number then leases else leases ++ [(number, ttl)]

/-- Value of a `counter:` key, `none` when the key is absent. -/
def lookupCounter : List (Phone × Nat) → Phone → Option Nat
  | [], _ => none
  | z :: rest, n => if z.1 = n then some z.2 else lookupCounter rest n

/-- `Incr` on a `counter:` key: an absent key is created at 1. -/
def incrCounter : List (Phone × Nat) → Phone → List (Phone × Nat)
  | [], n => [(n, 1)]
  | z :: rest, n => if z.1 = n then (z.1, z.2 + 1) :: rest else z :: incrCounter rest n

/-- Usage counter of a phone number in a state. -/
def counterVal (s : RRState) (n : Phone) : Option Nat :=
  lookupCounter s.counters n

/-- Outcome of `AddPhoneNumber`. -/
inductive AddResult
  | ok (s : RRState)
  | alreadyExists
deriving DecidableEq, Repr

/-- Outcome of `SetPhoneNumberLockLimited`. -/
inductive LeaseResult
  | ok (s : RRState)
  | notFound
deriving DecidableEq, Repr

/-- The two business errors of `GetNextPhoneNumber`'s critical section. -/
inductive SelectError
  | noPhones
  | allLocked
deriving DecidableEq, Repr

/-- Outcome of one `GetNextPhoneNumber` call. -/
inductive SelectOutcome
  | ok (number : Phone)
  | err (e : SelectError)
deriving DecidableEq, Repr

/-- `AddPhoneNumber` (roundrobin.go:38-65): reads the member's score
(the Go variable holds 0 when the key is absent), rejects when that score
is nonzero, otherwise adds the number with score `highest + 1`
(`ZRevRangeWithScores 0 0` = last entry of the ascending pool), or 0 when
the pool is empty.  `nextScoreOf` is the score computation (roundrobin.go:
49-58): `ZRevRangeWithScores 0 0` = last entry of the ascending pool. -/
def nextScoreOf (pool : List (Phone × Int)) : Int :=
  match pool.getLast? with
  | none => 0
  | some top => top.2 + 1

/-- The duplicate check and the `ZAdd` of `AddPhoneNumber`: note the code
rejects on `score != 0`, not on key presence. -/
def addPhoneNumber (s : RRState) (number : Phone) : AddResult :=
  if (zscore s.pool number).getD 0 ≠ 0 then .alreadyExists
  else .ok { s with pool := zadd s.pool number (nextScoreOf s.pool) }

/-- `SetPhoneNumberLockLimited` (roundrobin.go:68-81): fails when the
number is not in the pool, otherwise installs the lease key with `SetNX`
(an already-present lease is left untouched and the call still succeeds). -/
def setPhoneNumberLockLimited (s : RRState) (number : Phone) (ttl : Int) :
    LeaseResult :=
  match zscore s.pool number with
  | none => .notFound
  | some _ => .ok { s with leases := setNXLease s.leases number ttl }

/-- The `lastScore` read (roundrobin.go:108-113): the cursor scalar,
with `-1` substituted when the key is absent (redis.Nil). -/
def lastScore (s : RRState) : Int :=
  match s.cursor with
  | none => -1
  | some c => c

/-- The first range query (roundrobin.go:116-119):
`ZRangeByScoreWithScores Min=lastScore Max=+inf` — an INCLUSIVE lower
bound, served in ascending score order. -/
def candidatesAfter (s : RRState) : List (Phone × Int) :=
  s.pool.filter (fun z => lastScore s ≤ z.2)

/-- The wraparound test (roundrobin.go:125): re-query the full pool when
the first query returned at most one entry. -/
def wrapsAround (s : RRState) : Bool :=
  decide ((candidatesAfter s).length ≤ 1)

/-- The candidate list the selection passes actually scan: the full pool
in the wraparound case, otherwise the first query's result. -/
def scannedCandidates (s : RRState) : List (Phone × Int) :=
  if wrapsAround s then s.pool else candidatesAfter s

/-- First selection pass (roundrobin.go:138-158): skip entries with
score ≤ lastScore, then take the first entry whose lease key is absent.
`("", 0)` models the Go zero values of `selectedPhone`/`selectedScore`
when the loop finds nothing. -/
def firstPass (leases : List (Phone × Int)) (lastSc : Int) :
    List (Phone × Int) → Phone × Int
  | [] => ("", 0)
  | z :: rest =>
    if z.2 ≤ lastSc then firstPass leases lastSc rest
    else if leaseExists leases z.1 then firstPass leases lastSc rest
    else z

/-- Second selection pass (roundrobin.go:161-177): same scan without the
score filter. -/
def secondPass (leases : List (Phone × Int)) :
    List (Phone × Int) → Phone × Int
  | [] => ("", 0)
  | z :: rest => if leaseExists leases z.1 then secondPass leases rest else z

/-- The pair the critical section settles on: the first pass's pick, or
the second pass's when the first left `selectedPhone` empty. -/
def selectedPair (s : RRState) : Phone × Int :=
  let sel1 := firstPass s.leases (lastScore s) (scannedCandidates s)
  if sel1.1 = "" then secondPass s.leases (scannedCandidates s) else sel1

/-- `GetNextPhoneNumber`'s critical section (roundrobin.go:84-197), lock
handling aside: empty pool fails, an empty `selectedPhone` after both
passes fails with the all-locked error, otherwise the cursor is set to
the selected score and the selected number's counter incremented. -/
def getNextPhoneNumber (s : RRState) : SelectOutcome × RRState :=
  if s.pool.length = 0 then (.err .noPhones, s)
  else if (selectedPair s).1 = "" then (.err .allLocked, s)
  else
    (.ok (selectedPair s).1,
      { s with
          cursor := some (selectedPair s).2
          counters := incrCounter s.counters (selectedPair s).1 })

/-- Run `n` consecutive `GetNextPhoneNumber` calls, collecting the
returned numbers; the run stops at the first failed call. -/
def selectRun : RRState → Nat → List Phone × RRState
  | s, 0 => ([], s)
  | s, n + 1 =>
    match getNextPhoneNumber s with
    | (.ok p, s₁) =>
      let r := selectRun s₁ n
      (p :: r.1, r.2)
    | (.err _, s₁) => ([], s₁)

/-- One operation of an execution history. -/
inductive Op
  | add (number : Phone)
  | lease (number : Phone) (ttl : Int)
  | selectNext
deriving DecidableEq, Repr

/-- Apply one operation; the second component is the number returned by a
successful selection. -/
def applyOp (s : RRState) : Op → RRState × Option Phone
  | .add n =>
    match addPhoneNumber s n with
    | .ok s₁ => (s₁, none)
    | .alreadyExists => (s, none)
  | .lease n ttl =>
    match setPhoneNumberLockLimited s n ttl with
    | .ok s₁ => (s₁, none)
    | .notFound => (s, none)
  | .selectNext =>
    match getNextPhoneNumber s with
    | (.ok p, s₁) => (s₁, some p)
    | (.err _, s₁) => (s₁, none)

/-- The empty store. -/
def initState : RRState := ⟨[], none, [], []⟩

/-- Run a history of operations, collecting the successful selections. -/
def runOps : RRState → List Op → RRState × List Phone
  | s, [] => (s, [])
  | s, op :: rest =>
    let r := applyOp s op
    let r₁ := runOps r.1 rest
    (r₁.1, r.2.toList ++ r₁.2)

/-- State of `AddPhoneNumber` (possibly failed, state kept). -/
def applyAdd (s : RRState) (n : Phone) : RRState :=
  match addPhoneNumber s n with
  | .ok s₁ => s₁
  | .alreadyExists => s

/-- Pool built by a sequence of `AddPhoneNumber` calls on the empty store. -/
def buildPool (ids : List Phone) : RRState :=
  ids.foldl applyAdd initState

/-- The pool a distinct-id add sequence is expected to produce: ids in
order, scores `k, k+1, …`. -/
def expectedPool : List Phone → Int → List (Phone × Int)
  | [], _ => []
  | a :: rest, k => (a, k) :: expectedPool rest (k + 1)

/-- Insertion sort by score — used only by the spec-side definitions,
which ask for candidates "in ascending rank order". -/
def sortByScore (l : List (Phone × Int)) : List (Phone × Int) :=
  l.foldr insertByScore []

/-- Modelled from the spec's words for step 4 of `SelectNext` ("Query
candidates with rank > Cursor, ascending (set A)"): the pool entries with
rank STRICTLY greater than the cursor, in ascending rank order. -/
def specSetA (s : RRState) : List (Phone × Int) :=
  sortByScore (s.pool.filter (fun z => lastScore s < z.2))

/-- The inclusive variant of `specSetA`: rank ≥ cursor, ascending. -/
def specSetAIncl (s : RRState) : List (Phone × Int) :=
  sortByScore (s.pool.filter (fun z => lastScore s ≤ z.2))

/-- Result of one `SetNX` attempt on the mutex key (roundrobin.go:100). -/
inductive AttemptResult
  | acquired
  | notAcquired
  | storeError
deriving DecidableEq, Repr

/-- `maxRetries` (roundrobin.go:95). -/
def maxRetries : Nat := 100

/-- `lockDuration` in seconds (roundrobin.go:96). -/
def lockDurationSec : Nat := 10

/-- `timeDelay` in milliseconds (roundrobin.go:97) — the fixed sleep
between consecutive acquisition attempts. -/
def timeDelayMs : Nat := 100

/-- Outcome of the acquisition loop; `sleeps` counts the executed
`time.Sleep(timeDelay)` calls. -/
inductive LockOutcome
  | acquired (attemptIndex sleeps : Nat)
  | storeError (attemptIndex sleeps : Nat)
  | lockTimeout (sleeps : Nat)
deriving DecidableEq, Repr

/-- The lock-acquisition loop (roundrobin.go:99-205), `attempt i` giving
the outcome of the i-th `SetNX`: a store error returns immediately, a
successful attempt enters the critical section, a failed attempt sleeps
(except after the last iteration) and retries; exhausted fuel is the
fall-through to the lock-timeout error. -/
def acquireAux (attempt : Nat → AttemptResult) : Nat → Nat → Nat → LockOutcome
  | _, sleeps, 0 => .lockTimeout sleeps
  | i, sleeps, fuel + 1 =>
    match attempt i with
    | .storeError => .storeError i sleeps
    | .acquired => .acquired i sleeps
    | .notAcquired =>
      acquireAux attempt (i + 1)
        (if i < maxRetries - 1 then sleeps + 1 else sleeps) fuel

/-- The full acquisition loop: `maxRetries` iterations from attempt 0. -/
def acquireLock (attempt : Nat → AttemptResult) : LockOutcome :=
  acquireAux attempt 0 0 maxRetries

/-! ## Helper lemmas on the store primitives -/

theorem lookupCounter_incr_self (c : List (Phone × Nat)) (p : Phone) :
    lookupCounter (incrCounter c p) p = some ((lookupCounter c p).getD 0 + 1) := by
  induction c with
  | nil => simp [incrCounter, lookupCounter]
  | cons z rest ih =>
    by_cases h : z.1 = p
    · simp [incrCounter, lookupCounter, h]
    · simp [incrCounter, lookupCounter, h, ih]

theorem lookupCounter_incr_other (c : List (Phone × Nat)) (p q : Phone)
    (hpq : q ≠ p) : lookupCounter (incrCounter c p) q = lookupCounter c q := by
  have hqp : ¬ p = q := fun h => hpq h.symm
  have hpq2 : ¬ q = p := hpq
  induction c with
  | nil => simp [incrCounter, lookupCounter, hqp]
  | cons z rest ih =>
    by_cases h : z.1 = p
    · have hzq : ¬ z.1 = q := by rw [h]; exact hqp
      simp [incrCounter, lookupCounter, h, hzq, hqp]
    · by_cases h2 : z.1 = q
      · simp [incrCounter, lookupCounter, h, h2, hpq2]
      · simp [incrCounter, lookupCounter, h, h2, ih]

theorem firstPass_found {L : List (Phone × Int)} {c : Int}
    {l : List (Phone × Int)} (h : (firstPass L c l).1 ≠ "") :
    firstPass L c l ∈ l ∧ leaseExists L (firstPass L c l).1 = false := by
  induction l with
  | nil => simp [firstPass] at h
  | cons z rest ih =>
    by_cases h1 : z.2 ≤ c
    · rw [firstPass, if_pos h1] at h ⊢
      exact ⟨List.mem_cons_of_mem _ (ih h).1, (ih h).2⟩
    · by_cases h2 : leaseExists L z.1 = true
      · rw [firstPass, if_neg h1, if_pos h2] at h ⊢
        exact ⟨List.mem_cons_of_mem _ (ih h).1, (ih h).2⟩
      · rw [firstPass, if_neg h1, if_neg h2]
        exact ⟨List.mem_cons_self _ _, Bool.not_eq_true _ ▸ h2⟩

theorem secondPass_found {L : List (Phone × Int)}
    {l : List (Phone × Int)} (h : (secondPass L l).1 ≠ "") :
    secondPass L l ∈ l ∧ leaseExists L (secondPass L l).1 = false := by
  induction l with
  | nil => simp [secondPass] at h
  | cons z rest ih =>
    by_cases h2 : leaseExists L z.1 = true
    · rw [secondPass, if_pos h2] at h ⊢
      exact ⟨List.mem_cons_of_mem _ (ih h).1, (ih h).2⟩
    · rw [secondPass, if_neg h2]
      exact ⟨List.mem_cons_self _ _, Bool.not_eq_true _ ▸ h2⟩

theorem firstPass_none {L : List (Phone × Int)} {c : Int}
    {l : List (Phone × Int)}
    (h : ∀ z ∈ l, z.2 ≤ c ∨ leaseExists L z.1 = true) :
    firstPass L c l = ("", 0) := by
  induction l with
  | nil => rfl
  | cons z rest ih =>
    have hz := h z (List.mem_cons_self _ _)
    have hrest : ∀ w ∈ rest, w.2 ≤ c ∨ leaseExists L w.1 = true :=
      fun w hw => h w (List.mem_cons_of_mem _ hw)
    rcases hz with h1 | h2
    · rw [firstPass, if_pos h1]; exact ih hrest
    · by_cases h1 : z.2 ≤ c
      · rw [firstPass, if_pos h1]; exact ih hrest
      · rw [firstPass, if_neg h1, if_pos h2]; exact ih hrest

theorem secondPass_none {L : List (Phone × Int)} {l : List (Phone × Int)}
    (h : ∀ z ∈ l, leaseExists L z.1 = true) :
    secondPass L l = ("", 0) := by
  induction l with
  | nil => rfl
  | cons z rest ih =>
    rw [secondPass, if_pos (h z (List.mem_cons_self _ _))]
    exact ih fun w hw => h w (List.mem_cons_of_mem _ hw)

theorem scannedCandidates_subset (s : RRState) :
    ∀ z ∈ scannedCandidates s, z ∈ s.pool := by
  intro z hz
  unfold scannedCandidates at hz
  by_cases h : wrapsAround s
  · rwa [if_pos h] at hz
  · rw [if_neg h] at hz
    exact (List.mem_filter.mp hz).1

theorem selectedPair_found {s : RRState} (h : (selectedPair s).1 ≠ "") :
    selectedPair s ∈ s.pool ∧ leaseExists s.leases (selectedPair s).1 = false := by
  unfold selectedPair at h ⊢
  by_cases h1 : (firstPass s.leases (lastScore s) (scannedCandidates s)).1 = ""
  · rw [if_pos h1] at h ⊢
    exact ⟨scannedCandidates_subset s _ (secondPass_found h).1, (secondPass_found h).2⟩
  · rw [if_neg h1] at h ⊢
    exact ⟨scannedCandidates_subset s _ (firstPass_found h).1, (firstPass_found h).2⟩

/-- Full characterisation of a successful `GetNextPhoneNumber` call. -/
theorem getNext_ok_spec {s : RRState} {p : Phone} {s₁ : RRState}
    (h : getNextPhoneNumber s = (.ok p, s₁)) :
    p ≠ "" ∧ leaseExists s.leases p = false ∧
    ∃ sc, (p, sc) ∈ s.pool ∧
      s₁ = { s with cursor := some sc, counters := incrCounter s.counters p } := by
  unfold getNextPhoneNumber at h
  by_cases h0 : s.pool.length = 0
  · rw [if_pos h0] at h
    exact absurd (congrArg Prod.fst h) (by simp)
  · rw [if_neg h0] at h
    by_cases h1 : (selectedPair s).1 = ""
    · rw [if_pos h1] at h
      exact absurd (congrArg Prod.fst h) (by simp)
    · rw [if_neg h1, Prod.mk.injEq] at h
      obtain ⟨hfst, hsnd⟩ := h
      have hp : (selectedPair s).1 = p := by
        injection hfst
      have hfound := selectedPair_found h1
      subst hp
      exact ⟨h1, hfound.2, (selectedPair s).2, Prod.mk.eta ▸ hfound.1, hsnd.symm⟩

theorem getNext_err_state {s : RRState} {e : SelectError} {s₁ : RRState}
    (h : getNextPhoneNumber s = (.err e, s₁)) : s₁ = s := by
  unfold getNextPhoneNumber at h
  by_cases h0 : s.pool.length = 0
  · rw [if_pos h0, Prod.mk.injEq] at h
    exact h.2.symm
  · rw [if_neg h0] at h
    by_cases h1 : (selectedPair s).1 = ""
    · rw [if_pos h1, Prod.mk.injEq] at h
      exact h.2.symm
    · rw [if_neg h1, Prod.mk.injEq] at h
      exact absurd h.1 (by simp)

theorem add_frame {s : RRState} {n : Phone} {s₁ : RRState}
    (h : addPhoneNumber s n = .ok s₁) :
    s₁.cursor = s.cursor ∧ s₁.leases = s.leases ∧ s₁.counters = s.counters := by
  unfold addPhoneNumber at h
  by_cases hsc : ((zscore s.pool n).getD 0 : Int) ≠ 0
  · rw [if_pos hsc] at h
    exact absurd h (by simp)
  · rw [if_neg hsc] at h
    injection h with h
    subst h
    exact ⟨rfl, rfl, rfl⟩

theorem lease_frame {s : RRState} {n : Phone} {ttl : Int} {s₁ : RRState}
    (h : setPhoneNumberLockLimited s n ttl = .ok s₁) :
    s₁.pool = s.pool ∧ s₁.cursor = s.cursor ∧ s₁.counters = s.counters := by
  unfold setPhoneNumberLockLimited at h
  cases hsc : zscore s.pool n with
  | none => rw [hsc] at h; exact absurd h (by simp)
  | some sc =>
    rw [hsc] at h
    injection h with h
    subst h
    exact ⟨rfl, rfl, rfl⟩

/-! ## C4: all resources leased -/

/-- C4: on a non-empty pool in which every resource has an active lease,
`GetNextPhoneNumber` fails with the all-leased error and returns the
state unchanged (cursor and all usage counters keep their values). -/
theorem allLeased_fails (s : RRState) (hne : s.pool ≠ [])
    (hl : ∀ z ∈ s.pool, leaseExists s.leases z.1 = true) :
    getNextPhoneNumber s = (.err .allLocked, s) := by
  have h0 : ¬ s.pool.length = 0 := by
    simpa [List.length_eq_zero] using hne
  have hf : firstPass s.leases (lastScore s) (scannedCandidates s) = ("", 0) :=
    firstPass_none (fun z hz => Or.inr (hl z (scannedCandidates_subset s z hz)))
  have hsnd : secondPass s.leases (scannedCandidates s) = ("", 0) :=
    secondPass_none (fun z hz => hl z (scannedCandidates_subset s z hz))
  have hsel : selectedPair s = ("", 0) := by
    unfold selectedPair
    rw [hf]
    simp [hsnd]
  unfold getNextPhoneNumber
  rw [if_neg h0, hsel]
  simp

/-- Witness for C4 at a concrete all-leased pool. -/
theorem allLeased_fails_witness :
    getNextPhoneNumber ⟨[("a", 0), ("b", 1)], some 0, [("a", 5), ("b", 5)], []⟩ =
      (.err .allLocked, ⟨[("a", 0), ("b", 1)], some 0, [("a", 5), ("b", 5)], []⟩) :=
  allLeased_fails _ (by decide) (by decide)

/-! ## C3: leased resources are never selected -/

/-- C3: while resource R has an active lease, no number of consecutive
`GetNextPhoneNumber` calls ever returns R, whatever the cursor position. -/
theorem leased_never_selected (s : RRState) (R : Phone) (n : Nat)
    (h : leaseExists s.leases R = true) :
    R ∉ (selectRun s n).1 := by
  induction n generalizing s with
  | zero => simp [selectRun]
  | succ n ih =>
    cases hg : getNextPhoneNumber s with
    | mk outcome s₁ =>
      cases outcome with
      | ok p =>
        obtain ⟨hp0, hpl, sc, hmem, hs₁⟩ := getNext_ok_spec hg
        simp only [selectRun, hg]
        intro hmem2
        rcases List.mem_cons.mp hmem2 with heq | hmem3
        · rw [heq] at h
          rw [h] at hpl
          exact absurd hpl (by simp)
        · have hl₁ : leaseExists s₁.leases R = true := by
            rw [hs₁]
            exact h
          exact ih s₁ hl₁ hmem3
      | err e =>
        simp [selectRun, hg]

/-- Witness for C3: resource "b" is leased, three calls on pool [a, b]. -/
theorem leased_never_selected_witness :
    "b" ∉ (selectRun ⟨[("a", 0), ("b", 1)], none, [("b", 60)], []⟩ 3).1 :=
  leased_never_selected _ "b" 3 (by decide)

/-! ## C10: frame property of a successful selection -/

/-- C10: a successful `GetNextPhoneNumber` call leaves the pool and the
leases untouched, sets the cursor to the selected number's rank, and
changes no usage counter other than the selected number's, which it
increments by one. -/
theorem select_frame (s : RRState) (p : Phone) (s₁ : RRState)
    (h : getNextPhoneNumber s = (.ok p, s₁)) :
    s₁.pool = s.pool ∧ s₁.leases = s.leases ∧
    (∃ sc, (p, sc) ∈ s.pool ∧ s₁.cursor = some sc) ∧
    counterVal s₁ p = some ((counterVal s p).getD 0 + 1) ∧
    ∀ q, q ≠ p → counterVal s₁ q = counterVal s q := by
  obtain ⟨hp0, hpl, sc, hmem, hs₁⟩ := getNext_ok_spec h
  subst hs₁
  exact ⟨rfl, rfl, ⟨sc, hmem, rfl⟩,
    lookupCounter_incr_self _ _, fun q hq => lookupCounter_incr_other _ _ _ hq⟩

/-- Witness for C10 at a concrete successful call. -/
theorem select_frame_witness :
    (⟨[("a", 0)], some 0, [], [("a", 3)]⟩ : RRState).pool = [("a", 0)] ∧
    counterVal (⟨[("a", 0)], some 0, [], [("a", 3)]⟩ : RRState) "a" = some 3 ∧
    ((⟨[("a", 0)], none, [], [("a", 2)]⟩ : RRState).pool = [("a", 0)] ∧
      (⟨[("a", 0)], none, [], [("a", 2)]⟩ : RRState).leases = [] ∧
      (∃ sc, (("a", sc) : Phone × Int) ∈
          ([("a", 0)] : List (Phone × Int)) ∧
        (⟨[("a", 0)], some 0, [], [("a", 3)]⟩ : RRState).cursor = some sc) ∧
      counterVal (⟨[("a", 0)], some 0, [], [("a", 3)]⟩ : RRState) "a" =
        some ((counterVal (⟨[("a", 0)], none, [], [("a", 2)]⟩ : RRState) "a").getD 0 + 1) ∧
      ∀ q, q ≠ "a" →
        counterVal (⟨[("a", 0)], some 0, [], [("a", 3)]⟩ : RRState) q =
          counterVal (⟨[("a", 0)], none, [], [("a", 2)]⟩ : RRState) q) := by
  refine ⟨rfl, rfl, ?_⟩
  exact select_frame ⟨[("a", 0)], none, [], [("a", 2)]⟩ "a"
    ⟨[("a", 0)], some 0, [], [("a", 3)]⟩ (by decide)

/-! ## C7: usage counters count successful selections -/

theorem counterVal_applyOp (s : RRState) (op : Op) (R : Phone) :
    counterVal (applyOp s op).1 R =
      if (applyOp s op).2 = some R then some ((counterVal s R).getD 0 + 1)
      else counterVal s R := by
  cases op with
  | add n =>
    cases h : addPhoneNumber s n with
    | ok s₁ =>
      have hc := (add_frame h).2.2
      simp [applyOp, h, counterVal, hc]
    | alreadyExists => simp [applyOp, h]
  | lease n ttl =>
    cases h : setPhoneNumberLockLimited s n ttl with
    | ok s₁ =>
      have hc := (lease_frame h).2.2
      simp [applyOp, h, counterVal, hc]
    | notFound => simp [applyOp, h]
  | selectNext =>
    cases hg : getNextPhoneNumber s with
    | mk outcome s₁ =>
      cases outcome with
      | ok p =>
        obtain ⟨hp0, hpl, sc, hmem, hs₁⟩ := getNext_ok_spec hg
        subst hs₁
        by_cases hR : p = R
        · subst hR
          simp [applyOp, hg, counterVal, lookupCounter_incr_self]
        · have : ¬ (some p = some R) := by simpa using hR
          simp only [applyOp, hg, this, if_neg]
          simp [counterVal, lookupCounter_incr_other _ _ _ (fun h2 => hR h2.symm)]
      | err e =>
        have hs₁ : s₁ = s := getNext_err_state hg
        subst hs₁
        simp [applyOp, hg]

theorem counterVal_runOps (ops : List Op) (s : RRState) (R : Phone) :
    counterVal (runOps s ops).1 R =
      if (runOps s ops).2.count R = 0 then counterVal s R
      else some ((counterVal s R).getD 0 + (runOps s ops).2.count R) := by
  induction ops generalizing s with
  | nil => simp [runOps]
  | cons op rest ih =>
    have hstep := counterVal_applyOp s op R
    cases hsel : (applyOp s op).2 with
    | none =>
      rw [hsel] at hstep
      simp only [reduceCtorEq, if_neg, if_false] at hstep
      simp only [runOps, hsel, Option.toList_none, List.nil_append]
      rw [ih, hstep]
    | some p =>
      rw [hsel] at hstep
      simp only [runOps, hsel, Option.toList_some]
      by_cases hR : p = R
      · subst hR
        rw [if_pos rfl] at hstep
        have hcount : (p :: (runOps (applyOp s op).1 rest).2).count p =
            (runOps (applyOp s op).1 rest).2.count p + 1 := by
          simp [List.count_cons]
        rw [List.singleton_append, hcount, ih, hstep]
        by_cases hz : (runOps (applyOp s op).1 rest).2.count p = 0
        · simp [hz]
        · rw [if_neg hz, if_neg (by omega)]
          congr 1
          simp
          omega
      · have : ¬ (some p = some R) := by simpa using hR
        rw [if_neg this] at hstep
        have hcount : (p :: (runOps (applyOp s op).1 rest).2).count R =
            (runOps (applyOp s op).1 rest).2.count R := by
          simp [List.count_cons, hR]
        rw [List.singleton_append, hcount, ih, hstep]

/-- C7: starting from the empty store, after any history of add, lease
and select operations, each number's usage counter equals exactly the
number of successful selections that returned it, and a number never
selected has no counter key at all. -/
theorem counter_equals_selection_count (ops : List Op) (R : Phone) :
    counterVal (runOps initState ops).1 R =
      if (runOps initState ops).2.count R = 0 then none
      else some ((runOps initState ops).2.count R) := by
  have h := counterVal_runOps ops initState R
  have h0 : counterVal initState R = none := rfl
  rw [h0] at h
  simpa using h

/-! ## C8: lease installation -/

theorem lookupLease_append_self (L : List (Phone × Int)) (n : Phone) (t : Int)
    (h : leaseExists L n = false) :
    lookupLease (L ++ [(n, t)]) n = some t := by
  induction L with
  | nil => simp [lookupLease]
  | cons z rest ih =>
    rw [leaseExists] at h
    by_cases hz : z.1 = n
    · rw [if_pos hz] at h
      exact absurd h (by simp)
    · rw [if_neg hz] at h
      rw [List.cons_append, lookupLease, if_neg hz]
      exact ih h

theorem lookupLease_append_other (L : List (Phone × Int)) (n q : Phone) (t : Int)
    (h : q ≠ n) : lookupLease (L ++ [(n, t)]) q = lookupLease L q := by
  have hnq : ¬ n = q := fun h2 => h h2.symm
  induction L with
  | nil => simp [lookupLease, hnq]
  | cons z rest ih =>
    by_cases hz : z.1 = q
    · rw [List.cons_append, lookupLease, if_pos hz, lookupLease, if_pos hz]
    · rw [List.cons_append, lookupLease, if_neg hz, lookupLease, if_neg hz]
      exact ih

/-- C8: `SetPhoneNumberLockLimited` fails with not-found exactly when the
number is not in the pool; on a pool member it succeeds and touches only
the lease keys: an existing lease is left exactly as it was (idempotent
no-op success), an absent one is installed with the given ttl, and every
other number's lease key is unchanged. -/
theorem leaseResource_spec (s : RRState) (n : Phone) (ttl : Int) :
    (zscore s.pool n = none → setPhoneNumberLockLimited s n ttl = .notFound) ∧
    (∀ sc, zscore s.pool n = some sc →
      ∃ s₁, setPhoneNumberLockLimited s n ttl = .ok s₁ ∧
        s₁.pool = s.pool ∧ s₁.cursor = s.cursor ∧ s₁.counters = s.counters ∧
        (leaseExists s.leases n = true → s₁.leases = s.leases) ∧
        (leaseExists s.leases n = false →
          lookupLease s₁.leases n = some ttl ∧
          ∀ q, q ≠ n → lookupLease s₁.leases q = lookupLease s.leases q)) := by
  constructor
  · intro h
    unfold setPhoneNumberLockLimited
    rw [h]
  · intro sc hsc
    refine ⟨{ s with leases := setNXLease s.leases n ttl }, ?_, rfl, rfl, rfl, ?_, ?_⟩
    · unfold setPhoneNumberLockLimited
      rw [hsc]
    · intro h
      show setNXLease s.leases n ttl = s.leases
      unfold setNXLease
      rw [h]
      simp
    · intro h
      refine ⟨?_, ?_⟩
      · show lookupLease (setNXLease s.leases n ttl) n = some ttl
        unfold setNXLease
        rw [h]
        simpa using lookupLease_append_self s.leases n ttl h
      · intro q hq
        show lookupLease (setNXLease s.leases n ttl) q = lookupLease s.leases q
        unfold setNXLease
        rw [h]
        simpa using lookupLease_append_other s.leases n q ttl hq

/-- Witness for C8: the not-found branch and the fresh-install branch at
concrete inputs. -/
theorem leaseResource_spec_witness :
    setPhoneNumberLockLimited ⟨[("a", 0)], none, [], []⟩ "b" 9 =
      LeaseResult.notFound ∧
    ∃ s₁, setPhoneNumberLockLimited ⟨[("a", 0)], none, [], []⟩ "a" 9 = .ok s₁ ∧
      s₁.pool = [("a", 0)] ∧ s₁.cursor = none ∧ s₁.counters = [] ∧
      (leaseExists ([] : List (Phone × Int)) "a" = true → s₁.leases = []) ∧
      (leaseExists ([] : List (Phone × Int)) "a" = false →
        lookupLease s₁.leases "a" = some 9 ∧
        ∀ q, q ≠ "a" → lookupLease s₁.leases q = lookupLease ([] : List (Phone × Int)) q) := by
  refine ⟨(leaseResource_spec ⟨[("a", 0)], none, [], []⟩ "b" 9).1 (by decide), ?_⟩
  exact (leaseResource_spec ⟨[("a", 0)], none, [], []⟩ "a" 9).2 0 (by decide)

/-! ## C5: the duplicate-add check -/

/-- C5 (code bug): re-adding the number that holds rank 0 does NOT fail —
the `score != 0` duplicate test cannot distinguish "absent" from "present
with score 0" — and the pool is changed: the number is re-ranked to
`max + 1`.  A duplicate of any nonzero-rank number is rejected as the
claim says (second conjunct). -/
theorem duplicate_rank0_add_succeeds :
    addPhoneNumber ⟨[("p", 0)], none, [], []⟩ "p" =
      .ok ⟨[("p", 1)], none, [], []⟩ ∧
    addPhoneNumber ⟨[("p", 0), ("q", 1)], none, [], []⟩ "q" =
      AddResult.alreadyExists := by
  exact ⟨by decide, by decide⟩

/-! ## C2: the candidate set of step 4 -/

theorem sortByScore_of_sorted {l : List (Phone × Int)}
    (h : l.Pairwise (fun a b => a.2 < b.2)) : sortByScore l = l := by
  induction l with
  | nil => rfl
  | cons z rest ih =>
    rw [List.pairwise_cons] at h
    show insertByScore z (sortByScore rest) = z :: rest
    rw [ih h.2]
    cases rest with
    | nil => rfl
    | cons w rest2 =>
      rw [insertByScore, if_pos (h.1 w (List.mem_cons_self _ _))]

/-- C2 counterexample: with pool `{a ↦ 0, b ↦ 1}` and the cursor at rank
0, the query the code issues (inclusive lower bound) returns both
entries, not only the strictly-greater entry the claim describes; and no
full-pool re-query happens even though the strict set has exactly one
entry, so "re-query iff the strict set has at most one entry" fails too. -/
theorem candidate_query_not_strict :
    candidatesAfter ⟨[("a", 0), ("b", 1)], some 0, [], []⟩ ≠
      specSetA ⟨[("a", 0), ("b", 1)], some 0, [], []⟩ ∧
    wrapsAround ⟨[("a", 0), ("b", 1)], some 0, [], []⟩ = false ∧
    (specSetA ⟨[("a", 0), ("b", 1)], some 0, [], []⟩).length ≤ 1 := by
  refine ⟨by decide, by decide, by decide⟩

/-- C2 amended: on a sorted pool the candidate set the code queries in
step 4 is exactly the resources with rank greater than OR EQUAL to the
cursor, in ascending rank order, and the full-pool re-query happens iff
that inclusive set has at most one entry. -/
theorem candidate_query_spec (s : RRState)
    (hs : s.pool.Pairwise (fun a b => a.2 < b.2)) :
    candidatesAfter s = specSetAIncl s ∧
    (wrapsAround s = true ↔ (specSetAIncl s).length ≤ 1) := by
  have h1 : specSetAIncl s = candidatesAfter s := by
    unfold specSetAIncl
    exact sortByScore_of_sorted (List.Pairwise.filter _ hs)
  refine ⟨h1.symm, ?_⟩
  rw [h1]
  unfold wrapsAround
  simp

/-- Witness for C2 amended at a concrete sorted pool. -/
theorem candidate_query_spec_witness :
    candidatesAfter ⟨[("a", 0), ("b", 1), ("c", 2)], some 1, [], []⟩ =
      specSetAIncl ⟨[("a", 0), ("b", 1), ("c", 2)], some 1, [], []⟩ ∧
    (wrapsAround ⟨[("a", 0), ("b", 1), ("c", 2)], some 1, [], []⟩ = true ↔
      (specSetAIncl ⟨[("a", 0), ("b", 1), ("c", 2)], some 1, [], []⟩).length ≤ 1) :=
  candidate_query_spec _ (by decide)

/-! ## C9: the lock-acquisition retry loop -/

theorem acquireAux_step (attempt : Nat → AttemptResult) (i sleeps fuel : Nat) :
    acquireAux attempt i sleeps (fuel + 1) =
      match attempt i with
      | .storeError => .storeError i sleeps
      | .acquired => .acquired i sleeps
      | .notAcquired =>
        acquireAux attempt (i + 1)
          (if i < maxRetries - 1 then sleeps + 1 else sleeps) fuel := rfl

theorem acquireAux_timeout (attempt : Nat → AttemptResult) :
    ∀ fuel i sleeps, i + fuel = maxRetries →
      (∀ j, i ≤ j → j < maxRetries → attempt j = .notAcquired) →
      acquireAux attempt i sleeps fuel = .lockTimeout (sleeps + (fuel - 1)) := by
  intro fuel
  induction fuel with
  | zero =>
    intro i sleeps hif hall
    simp [acquireAux]
  | succ f ih =>
    intro i sleeps hif hall
    have hi : i < maxRetries := by omega
    simp only [acquireAux_step, hall i (le_refl i) hi]
    cases f with
    | zero =>
      have hif2 : ¬ i < maxRetries - 1 := by omega
      rw [if_neg hif2]
      simp [acquireAux]
    | succ g =>
      have hif2 : i < maxRetries - 1 := by omega
      rw [if_pos hif2]
      rw [ih (i + 1) (sleeps + 1) (by omega)
        (fun j hj1 hj2 => hall j (by omega) hj2)]
      congr 1
      omega

theorem acquireAux_acquired (attempt : Nat → AttemptResult) :
    ∀ k i sleeps fuel, k < fuel →
      (∀ j, i ≤ j → j < i + k → attempt j = .notAcquired) →
      attempt (i + k) = .acquired →
      i + fuel ≤ maxRetries →
      acquireAux attempt i sleeps fuel = .acquired (i + k) (sleeps + k) := by
  intro k
  induction k with
  | zero =>
    intro i sleeps fuel hk hpre hacq hbound
    obtain ⟨f, rfl⟩ : ∃ f, fuel = f + 1 := ⟨fuel - 1, by omega⟩
    rw [Nat.add_zero] at hacq
    simp only [acquireAux_step, hacq]
    simp
  | succ g ih =>
    intro i sleeps fuel hk hpre hacq hbound
    obtain ⟨f, rfl⟩ : ∃ f, fuel = f + 1 := ⟨fuel - 1, by omega⟩
    have hni : attempt i = .notAcquired := hpre i (le_refl i) (by omega)
    simp only [acquireAux_step, hni]
    have hil : i < maxRetries - 1 := by omega
    rw [if_pos hil]
    have hacq2 : attempt (i + 1 + g) = .acquired := by
      rw [show i + 1 + g = i + (g + 1) by omega]
      exact hacq
    rw [ih (i + 1) (sleeps + 1) f (by omega)
      (fun j hj1 hj2 => hpre j (by omega) (by omega)) hacq2 (by omega)]
    congr 1 <;> omega

theorem acquireAux_error (attempt : Nat → AttemptResult) :
    ∀ k i sleeps fuel, k < fuel →
      (∀ j, i ≤ j → j < i + k → attempt j = .notAcquired) →
      attempt (i + k) = .storeError →
      i + fuel ≤ maxRetries →
      acquireAux attempt i sleeps fuel = .storeError (i + k) (sleeps + k) := by
  intro k
  induction k with
  | zero =>
    intro i sleeps fuel hk hpre herr hbound
    obtain ⟨f, rfl⟩ : ∃ f, fuel = f + 1 := ⟨fuel - 1, by omega⟩
    rw [Nat.add_zero] at herr
    simp only [acquireAux_step, herr]
    simp
  | succ g ih =>
    intro i sleeps fuel hk hpre herr hbound
    obtain ⟨f, rfl⟩ : ∃ f, fuel = f + 1 := ⟨fuel - 1, by omega⟩
    have hni : attempt i = .notAcquired := hpre i (le_refl i) (by omega)
    simp only [acquireAux_step, hni]
    have hil : i < maxRetries - 1 := by omega
    rw [if_pos hil]
    have herr2 : attempt (i + 1 + g) = .storeError := by
      rw [show i + 1 + g = i + (g + 1) by omega]
      exact herr
    rw [ih (i + 1) (sleeps + 1) f (by omega)
      (fun j hj1 hj2 => hpre j (by omega) (by omega)) herr2 (by omega)]
    congr 1 <;> omega

theorem acquireAux_acquired_lt (attempt : Nat → AttemptResult) :
    ∀ fuel i sleeps a b,
      acquireAux attempt i sleeps fuel = .acquired a b → a < i + fuel := by
  intro fuel
  induction fuel with
  | zero =>
    intro i sleeps a b h
    exact absurd h (by simp [acquireAux])
  | succ f ih =>
    intro i sleeps a b h
    rw [acquireAux_step] at h
    cases hai : attempt i with
    | storeError =>
      rw [hai] at h
      exact absurd h (by simp)
    | acquired =>
      rw [hai] at h
      simp at h
      omega
    | notAcquired =>
      rw [hai] at h
      have := ih (i + 1) _ a b h
      omega

/-- C9: mutex acquisition is attempted at most `maxRetries = 100` times
with a fixed `timeDelayMs = 100` delay between consecutive attempts (the
loop is total by construction); if all 100 attempts fail to acquire the
call ends in the lock-timeout error, a first successful attempt at index
i enters the critical section after exactly i delays, and a store error
surfaces immediately without being retried. -/
theorem lock_retry_spec (attempt : Nat → AttemptResult) :
    maxRetries = 100 ∧ timeDelayMs = 100 ∧
    (∀ a b, acquireLock attempt = .acquired a b → a < maxRetries) ∧
    ((∀ j, j < maxRetries → attempt j = .notAcquired) →
      acquireLock attempt = .lockTimeout (maxRetries - 1)) ∧
    (∀ i, i < maxRetries → (∀ j, j < i → attempt j = .notAcquired) →
      attempt i = .acquired → acquireLock attempt = .acquired i i) ∧
    (∀ i, i < maxRetries → (∀ j, j < i → attempt j = .notAcquired) →
      attempt i = .storeError → acquireLock attempt = .storeError i i) := by
  refine ⟨rfl, rfl, ?_, ?_, ?_, ?_⟩
  · intro a b h
    have := acquireAux_acquired_lt attempt maxRetries 0 0 a b h
    omega
  · intro hall
    have := acquireAux_timeout attempt maxRetries 0 0 (by omega)
      (fun j h1 h2 => hall j h2)
    simpa using this
  · intro i hi hpre hacq
    have := acquireAux_acquired attempt i 0 0 maxRetries hi
      (fun j h1 h2 => hpre j (by omega)) (by simpa using hacq) (by omega)
    simpa using this
  · intro i hi hpre herr
    have := acquireAux_error attempt i 0 0 maxRetries hi
      (fun j h1 h2 => hpre j (by omega)) (by simpa using herr) (by omega)
    simpa using this

/-- Witness for C9: the all-fail and the immediate-success loops. -/
theorem lock_retry_spec_witness :
    acquireLock (fun _ => .notAcquired) = .lockTimeout (maxRetries - 1) ∧
    acquireLock (fun _ => .acquired) = .acquired 0 0 := by
  refine ⟨?_, ?_⟩
  · exact (lock_retry_spec (fun _ => .notAcquired)).2.2.2.1 (fun j hj => rfl)
  · exact (lock_retry_spec (fun _ => .acquired)).2.2.2.2.1 0 (by decide)
      (fun j hj => absurd hj (Nat.not_lt_zero j)) rfl

/-! ## C6: ranks assigned by a distinct add sequence -/

theorem expectedPool_map_fst (l : List Phone) (k : Int) :
    (expectedPool l k).map Prod.fst = l := by
  induction l generalizing k with
  | nil => rfl
  | cons a rest ih => simp [expectedPool, ih]

theorem expectedPool_score_bounds (l : List Phone) (k : Int) :
    ∀ z ∈ expectedPool l k, k ≤ z.2 ∧ z.2 < k + l.length := by
  induction l generalizing k with
  | nil => simp [expectedPool]
  | cons a rest ih =>
    intro z hz
    rw [expectedPool] at hz
    rcases List.mem_cons.mp hz with h | h
    · subst h
      have hsnd : ((a, k) : Phone × Int).2 = k := rfl
      rw [hsnd]
      simp only [List.length_cons]
      push_cast
      omega
    · obtain ⟨h1, h2⟩ := ih (k + 1) z h
      simp only [List.length_cons]
      push_cast
      omega

theorem expectedPool_pairwise (l : List Phone) (k : Int) :
    (expectedPool l k).Pairwise (fun a b => a.2 < b.2) := by
  induction l generalizing k with
  | nil => exact List.Pairwise.nil
  | cons a rest ih =>
    rw [expectedPool, List.pairwise_cons]
    refine ⟨fun z hz => ?_, ih (k + 1)⟩
    have := (expectedPool_score_bounds rest (k + 1) z hz).1
    have hsnd : ((a, k) : Phone × Int).2 = k := rfl
    rw [hsnd]
    omega

theorem zscore_expectedPool_none (l : List Phone) (k : Int) (n : Phone)
    (h : n ∉ l) : zscore (expectedPool l k) n = none := by
  induction l generalizing k with
  | nil => rfl
  | cons a rest ih =>
    rw [List.mem_cons, not_or] at h
    rw [expectedPool, zscore, if_neg (fun h2 => h.1 h2.symm)]
    exact ih (k + 1) h.2

theorem expectedPool_ne_nil (l : List Phone) (k : Int) (h : l ≠ []) :
    expectedPool l k ≠ [] := by
  cases l with
  | nil => exact absurd rfl h
  | cons a rest => simp [expectedPool]

theorem getLast_cons_of_ne {α : Type} (x : α) (l : List α) (h : l ≠ []) :
    (x :: l).getLast? = l.getLast? := by
  cases l with
  | nil => exact absurd rfl h
  | cons y rest => exact List.getLast?_cons_cons

theorem expectedPool_getLast (l : List Phone) (k : Int) (h : l ≠ []) :
    ∃ q, (expectedPool l k).getLast? = some q ∧ q.2 = k + l.length - 1 := by
  induction l generalizing k with
  | nil => exact absurd rfl h
  | cons a rest ih =>
    cases hr : rest with
    | nil =>
      refine ⟨(a, k), rfl, ?_⟩
      simp
    | cons b rest2 =>
      obtain ⟨q, hq1, hq2⟩ := ih (k + 1) (by simp [hr])
      rw [hr] at hq1 hq2
      refine ⟨q, ?_, ?_⟩
      · rw [expectedPool,
          getLast_cons_of_ne _ _ (expectedPool_ne_nil _ _ (by simp))]
        exact hq1
      · rw [hq2]
        simp only [List.length_cons]
        push_cast
        ring

theorem filter_ne_expectedPool (l : List Phone) (k : Int) (n : Phone)
    (h : n ∉ l) :
    (expectedPool l k).filter (fun z => z.1 ≠ n) = expectedPool l k := by
  rw [List.filter_eq_self]
  intro z hz
  have hzl : z.1 ∈ l := by
    rw [← expectedPool_map_fst l k]
    exact List.mem_map_of_mem _ hz
  simp only [ne_eq, decide_not, Bool.not_eq_eq_eq_not, Bool.not_true,
    decide_eq_false_iff_not]
  exact fun h2 => h (h2 ▸ hzl)

theorem insertByScore_append (x : Phone × Int) (l : List (Phone × Int))
    (h : ∀ w ∈ l, ¬ x.2 < w.2) : insertByScore x l = l ++ [x] := by
  induction l with
  | nil => rfl
  | cons w rest ih =>
    rw [insertByScore, if_neg (h w (List.mem_cons_self _ _)),
      ih (fun w2 hw2 => h w2 (List.mem_cons_of_mem _ hw2))]
    rfl

theorem expectedPool_append (l : List Phone) (n : Phone) (k : Int) :
    expectedPool (l ++ [n]) k = expectedPool l k ++ [(n, k + l.length)] := by
  induction l generalizing k with
  | nil => simp [expectedPool]
  | cons a rest ih =>
    rw [List.cons_append, expectedPool, ih (k + 1), expectedPool]
    rw [List.cons_append]
    have harith : k + 1 + (rest.length : Int) = k + ((a :: rest).length : Int) := by
      simp only [List.length_cons]
      push_cast
      ring
    rw [harith]

theorem nextScoreOf_expectedPool (l : List Phone) :
    nextScoreOf (expectedPool l 0) = l.length := by
  cases l with
  | nil => rfl
  | cons a rest =>
    obtain ⟨q, hq1, hq2⟩ := expectedPool_getLast (a :: rest) 0 (by simp)
    unfold nextScoreOf
    rw [hq1]
    show q.2 + 1 = ((a :: rest).length : Int)
    rw [hq2]
    omega

theorem zadd_expectedPool (l : List Phone) (n : Phone) (hn : n ∉ l) :
    zadd (expectedPool l 0) n (nextScoreOf (expectedPool l 0)) =
      expectedPool (l ++ [n]) 0 := by
  unfold zadd
  rw [filter_ne_expectedPool l 0 n hn, nextScoreOf_expectedPool]
  have hbound : ∀ w ∈ expectedPool l 0, ¬ ((n, (l.length : Int)).2 < w.2) := by
    intro w hw
    have := (expectedPool_score_bounds l 0 w hw).2
    have hsnd : ((n, (l.length : Int)) : Phone × Int).2 = (l.length : Int) := rfl
    rw [hsnd]
    omega
  rw [insertByScore_append _ _ hbound, expectedPool_append]
  congr 3
  omega

theorem addPhoneNumber_fresh (s : RRState) (l : List Phone) (n : Phone)
    (hpool : s.pool = expectedPool l 0) (hn : n ∉ l) :
    addPhoneNumber s n = .ok { s with pool := expectedPool (l ++ [n]) 0 } := by
  have hz : zscore s.pool n = none := by
    rw [hpool]
    exact zscore_expectedPool_none l 0 n hn
  unfold addPhoneNumber
  rw [hz]
  rw [if_neg (by simp)]
  rw [hpool, zadd_expectedPool l n hn]

theorem buildPool_go (rest : List Phone) :
    ∀ (l : List Phone) (s : RRState), (l ++ rest).Nodup →
      s.pool = expectedPool l 0 →
      (List.foldl applyAdd s rest).pool = expectedPool (l ++ rest) 0 := by
  induction rest with
  | nil =>
    intro l s h hp
    simpa using hp
  | cons n rest2 ih =>
    intro l s h hp
    have hn : n ∉ l := by
      intro hmem
      exact (List.nodup_append.mp h).2.2 hmem (List.mem_cons_self _ _)
    have happ : applyAdd s n = { s with pool := expectedPool (l ++ [n]) 0 } := by
      unfold applyAdd
      rw [addPhoneNumber_fresh s l n hp hn]
    rw [List.foldl_cons, happ]
    have hassoc : l ++ n :: rest2 = (l ++ [n]) ++ rest2 := by simp
    rw [hassoc] at h ⊢
    exact ih (l ++ [n]) _ h rfl

/-- C6: for any duplicate-free sequence of ids added to the empty store,
every add succeeds and assigns rank `1 + current maximum` (0 for the
first), so the pool lists the ids exactly once each, in insertion order,
with the unique, strictly increasing ranks 0, 1, 2, … -/
theorem distinct_adds_build_ranks (ids : List Phone) (h : ids.Nodup) :
    (buildPool ids).pool = expectedPool ids 0 ∧
    (buildPool ids).pool.map Prod.fst = ids ∧
    (buildPool ids).pool.Pairwise (fun a b => a.2 < b.2) := by
  have hp : (buildPool ids).pool = expectedPool ids 0 := by
    have := buildPool_go ids [] initState (by simpa using h) rfl
    simpa [buildPool] using this
  refine ⟨hp, ?_, ?_⟩
  · rw [hp]
    exact expectedPool_map_fst ids 0
  · rw [hp]
    exact expectedPool_pairwise ids 0

/-- Witness for C6 on a concrete three-id sequence. -/
theorem distinct_adds_build_ranks_witness :
    (buildPool ["a", "b", "c"]).pool = expectedPool ["a", "b", "c"] 0 ∧
    (buildPool ["a", "b", "c"]).pool.map Prod.fst = ["a", "b", "c"] ∧
    (buildPool ["a", "b", "c"]).pool.Pairwise (fun a b => a.2 < b.2) :=
  distinct_adds_build_ranks ["a", "b", "c"] (by decide)

/-! ## C1: the round-robin cycle -/

theorem filter_append_split {α : Type} (p : α → Bool) (l1 l2 : List α)
    (h1 : ∀ z ∈ l1, p z = false) (h2 : ∀ z ∈ l2, p z = true) :
    (l1 ++ l2).filter p = l2 := by
  rw [List.filter_append, List.filter_eq_nil_iff.mpr (fun a ha => by simp [h1 a ha]),
    List.filter_eq_self.mpr h2, List.nil_append]

theorem secondPass_head (L : List (Phone × Int)) (l : List (Phone × Int))
    (p0 : Phone × Int) (hhead : l.head? = some p0)
    (hl : leaseExists L p0.1 = false) :
    secondPass L l = p0 := by
  cases l with
  | nil => simp at hhead
  | cons z rest =>
    rw [List.head?_cons] at hhead
    injection hhead with hz
    subst hz
    rw [secondPass, if_neg (by simp [hl])]

theorem getNext_step (pre suf : List (Phone × Int)) (x y : Phone × Int)
    (L : List (Phone × Int)) (cnt : List (Phone × Nat))
    (hsort : (pre ++ x :: y :: suf).Pairwise (fun a b => a.2 < b.2))
    (hy : y.1 ≠ "") (hl : leaseExists L y.1 = false) :
    getNextPhoneNumber ⟨pre ++ x :: y :: suf, some x.2, L, cnt⟩ =
      (.ok y.1, ⟨pre ++ x :: y :: suf, some y.2, L, incrCounter cnt y.1⟩) := by
  obtain ⟨hp1, hp2, hcross⟩ := List.pairwise_append.mp hsort
  rw [List.pairwise_cons] at hp2
  have hca : candidatesAfter ⟨pre ++ x :: y :: suf, some x.2, L, cnt⟩ =
      x :: y :: suf := by
    unfold candidatesAfter
    apply filter_append_split
    · intro z hz
      simp only [decide_eq_false_iff_not, not_le]
      exact hcross z hz x (List.mem_cons_self _ _)
    · intro z hz
      simp only [decide_eq_true_eq]
      rcases List.mem_cons.mp hz with h | h
      · subst h
        exact le_refl _
      · exact le_of_lt (hp2.1 z h)
  have hwrap : wrapsAround ⟨pre ++ x :: y :: suf, some x.2, L, cnt⟩ = false := by
    unfold wrapsAround
    rw [hca]
    simp
  have hscan : scannedCandidates ⟨pre ++ x :: y :: suf, some x.2, L, cnt⟩ =
      x :: y :: suf := by
    unfold scannedCandidates
    rw [hwrap, hca]
    simp
  have hfp : firstPass L x.2 (x :: y :: suf) = y := by
    rw [firstPass, if_pos (le_refl x.2), firstPass,
      if_neg (not_le.mpr (hp2.1 y (List.mem_cons_self _ _))),
      if_neg (by simp [hl])]
  have hsel : selectedPair ⟨pre ++ x :: y :: suf, some x.2, L, cnt⟩ = y := by
    show (if (firstPass L x.2
          (scannedCandidates ⟨pre ++ x :: y :: suf, some x.2, L, cnt⟩)).1 = ""
        then secondPass L
          (scannedCandidates ⟨pre ++ x :: y :: suf, some x.2, L, cnt⟩)
        else firstPass L x.2
          (scannedCandidates ⟨pre ++ x :: y :: suf, some x.2, L, cnt⟩)) = y
    rw [hscan, hfp, if_neg hy]
  unfold getNextPhoneNumber
  rw [if_neg (by simp only [List.length_append, List.length_cons]; omega),
    hsel, if_neg hy]

theorem getNext_wrap (pre : List (Phone × Int)) (x p0 : Phone × Int)
    (L : List (Phone × Int)) (cnt : List (Phone × Nat))
    (hsort : (pre ++ [x]).Pairwise (fun a b => a.2 < b.2))
    (hhead : (pre ++ [x]).head? = some p0)
    (hne0 : p0.1 ≠ "")
    (hl : ∀ z ∈ pre ++ [x], leaseExists L z.1 = false) :
    getNextPhoneNumber ⟨pre ++ [x], some x.2, L, cnt⟩ =
      (.ok p0.1, ⟨pre ++ [x], some p0.2, L, incrCounter cnt p0.1⟩) := by
  obtain ⟨hp1, hp2, hcross⟩ := List.pairwise_append.mp hsort
  have hca : candidatesAfter ⟨pre ++ [x], some x.2, L, cnt⟩ = [x] := by
    unfold candidatesAfter
    apply filter_append_split
    · intro z hz
      simp only [decide_eq_false_iff_not, not_le]
      exact hcross z hz x (List.mem_cons_self _ _)
    · intro z hz
      simp only [decide_eq_true_eq]
      rcases List.mem_cons.mp hz with h | h
      · subst h
        exact le_refl _
      · simp at h
  have hwrap : wrapsAround ⟨pre ++ [x], some x.2, L, cnt⟩ = true := by
    unfold wrapsAround
    rw [hca]
    simp
  have hscan : scannedCandidates ⟨pre ++ [x], some x.2, L, cnt⟩ = pre ++ [x] := by
    unfold scannedCandidates
    rw [hwrap]
    simp
  have hfp : firstPass L x.2 (pre ++ [x]) = ("", 0) := by
    apply firstPass_none
    intro z hz
    left
    rcases List.mem_append.mp hz with h | h
    · exact le_of_lt (hcross z h x (List.mem_cons_self _ _))
    · rcases List.mem_cons.mp h with h2 | h2
      · subst h2
        exact le_refl _
      · simp at h2
  have hsp : secondPass L (pre ++ [x]) = p0 :=
    secondPass_head L _ p0 hhead
      (hl p0 (by
        cases pre with
        | nil =>
          simp only [List.nil_append, List.head?_cons] at hhead
          injection hhead with hh
          subst hh
          simp
        | cons w rest =>
          simp only [List.cons_append, List.head?_cons] at hhead
          injection hhead with hh
          subst hh
          simp))
  have hsel : selectedPair ⟨pre ++ [x], some x.2, L, cnt⟩ = p0 := by
    show (if (firstPass L x.2
          (scannedCandidates ⟨pre ++ [x], some x.2, L, cnt⟩)).1 = ""
        then secondPass L (scannedCandidates ⟨pre ++ [x], some x.2, L, cnt⟩)
        else firstPass L x.2
          (scannedCandidates ⟨pre ++ [x], some x.2, L, cnt⟩)) = p0
    rw [hscan, hfp, if_pos rfl, hsp]
  unfold getNextPhoneNumber
  rw [if_neg (by simp only [List.length_append, List.length_cons]; omega),
    hsel, if_neg hne0]

theorem getNext_fresh (t : List (Phone × Int)) (p0 : Phone × Int)
    (L : List (Phone × Int)) (cnt : List (Phone × Nat))
    (hnn : ∀ z ∈ p0 :: t, 0 ≤ z.2)
    (hne0 : p0.1 ≠ "")
    (hl : leaseExists L p0.1 = false) :
    getNextPhoneNumber ⟨p0 :: t, none, L, cnt⟩ =
      (.ok p0.1, ⟨p0 :: t, some p0.2, L, incrCounter cnt p0.1⟩) := by
  have hca : candidatesAfter ⟨p0 :: t, none, L, cnt⟩ = p0 :: t := by
    unfold candidatesAfter
    apply List.filter_eq_self.mpr
    intro z hz
    simp only [decide_eq_true_eq]
    have := hnn z hz
    show (-1 : Int) ≤ z.2
    omega
  have hscan : scannedCandidates ⟨p0 :: t, none, L, cnt⟩ = p0 :: t := by
    unfold scannedCandidates
    rw [hca, ite_self]
  have hfp : firstPass L (-1) (p0 :: t) = p0 := by
    have h0 : (0 : Int) ≤ p0.2 := hnn p0 (List.mem_cons_self _ _)
    rw [firstPass, if_neg (by omega), if_neg (by simp [hl])]
  have hsel : selectedPair ⟨p0 :: t, none, L, cnt⟩ = p0 := by
    show (if (firstPass L (-1)
          (scannedCandidates ⟨p0 :: t, none, L, cnt⟩)).1 = ""
        then secondPass L (scannedCandidates ⟨p0 :: t, none, L, cnt⟩)
        else firstPass L (-1)
          (scannedCandidates ⟨p0 :: t, none, L, cnt⟩)) = p0
    rw [hscan, hfp, if_neg hne0]
  unfold getNextPhoneNumber
  rw [if_neg (by simp), hsel, if_neg hne0]

theorem selectRun_succ_ok {s : RRState} {p : Phone} {s₁ : RRState} (n : Nat)
    (h : getNextPhoneNumber s = (.ok p, s₁)) :
    selectRun s (n + 1) = (p :: (selectRun s₁ n).1, (selectRun s₁ n).2) := by
  simp only [selectRun, h]

theorem selectRun_from (L : List (Phone × Int)) :
    ∀ (suf pre : List (Phone × Int)) (x p0 : Phone × Int)
      (cnt : List (Phone × Nat)),
      (pre ++ x :: suf).Pairwise (fun a b => a.2 < b.2) →
      (pre ++ x :: suf).head? = some p0 →
      p0.1 ≠ "" →
      (∀ z ∈ pre ++ x :: suf, z.1 ≠ "") →
      (∀ z ∈ pre ++ x :: suf, leaseExists L z.1 = false) →
      (selectRun ⟨pre ++ x :: suf, some x.2, L, cnt⟩ (suf.length + 1)).1 =
        suf.map Prod.fst ++ [p0.1] := by
  intro suf
  induction suf with
  | nil =>
    intro pre x p0 cnt hsort hhead hp0 hne hl
    have hg := getNext_wrap pre x p0 L cnt hsort hhead hp0 hl
    simp [selectRun, hg]
  | cons y suf2 ih =>
    intro pre x p0 cnt hsort hhead hp0 hne hl
    have hg := getNext_step pre suf2 x y L cnt hsort
      (hne y (by simp)) (hl y (by simp))
    rw [show (y :: suf2).length + 1 = (suf2.length + 1) + 1 by simp]
    rw [selectRun_succ_ok (suf2.length + 1) hg]
    have hassoc : pre ++ x :: y :: suf2 = (pre ++ [x]) ++ y :: suf2 := by simp
    have hrun := ih (pre ++ [x]) y p0 (incrCounter cnt y.1)
      (hassoc ▸ hsort) (hassoc ▸ hhead) hp0
      (fun z hz => hne z (hassoc ▸ hz)) (fun z hz => hl z (hassoc ▸ hz))
    rw [hassoc, hrun]
    simp

/-- C1 amended: for every pool of resources with strictly increasing
nonnegative ranks, none of them leased and none having the empty string
as its id (the code's internal not-found sentinel), starting with a fresh
cursor, N consecutive `GetNextPhoneNumber` calls return each resource
exactly once in rank (= insertion) order, and the (N+1)-th call returns
the first resource again. -/
theorem roundRobin_cycle (pool : List (Phone × Int)) (p0 : Phone × Int)
    (t : List (Phone × Int)) (L : List (Phone × Int)) (cnt : List (Phone × Nat))
    (hpool : pool = p0 :: t)
    (hsort : pool.Pairwise (fun a b => a.2 < b.2))
    (hnn : ∀ z ∈ pool, 0 ≤ z.2)
    (hne : ∀ z ∈ pool, z.1 ≠ "")
    (hl : ∀ z ∈ pool, leaseExists L z.1 = false) :
    (selectRun ⟨pool, none, L, cnt⟩ (pool.length + 1)).1 =
      pool.map Prod.fst ++ [p0.1] := by
  subst hpool
  have hg := getNext_fresh t p0 L cnt hnn (hne p0 (by simp)) (hl p0 (by simp))
  rw [show (p0 :: t).length + 1 = (t.length + 1) + 1 by simp]
  rw [selectRun_succ_ok (t.length + 1) hg]
  have hrun := selectRun_from L t [] p0 p0 (incrCounter cnt p0.1)
    (by simpa using hsort) (by simp) (hne p0 (by simp))
    (by simpa using hne) (by simpa using hl)
  rw [List.nil_append] at hrun
  rw [hrun]
  simp

/-- Witness for C1 amended: pool [a, b], three calls return a, b, a. -/
theorem roundRobin_cycle_witness :
    (selectRun ⟨[("a", 0), ("b", 1)], none, [], []⟩ 3).1 = ["a", "b", "a"] := by
  have := roundRobin_cycle [("a", 0), ("b", 1)] ("a", 0) [("b", 1)] [] []
    rfl (by decide) (by decide) (by decide) (by decide)
  simpa using this

/-- C1 counterexample: in the one-resource pool whose id is the empty
string — the value the code uses as its not-found sentinel — the very
first call, which the claim says returns that resource, fails with the
all-leased error even though nothing is leased, so the run of N = 1
calls returns no resource at all. -/
theorem empty_id_breaks_cycle :
    getNextPhoneNumber ⟨[("", 0)], none, [], []⟩ =
      (.err .allLocked, ⟨[("", 0)], none, [], []⟩) ∧
    (selectRun ⟨[("", 0)], none, [], []⟩ 1).1 = [] := by
  exact ⟨by decide, by decide⟩
